import Mathlib

/-!
Verification of the circular-buffer ring container (single producer, multiple
consumers). The data model and operations below are a shallow embedding of the
C++ sources:

- the main variant, file `circularbuffer.h` at the repository root
  (class `CircularBuffer<T>` with its nested `CircularItem`);
- the library variant, file `library/circularbuffer.h`, which differs in
  `CircularItem::release` and in `getNewCurrent` / `setNewReady`.

Slots are identified by their index in the `items` vector (the C++ code
allocates the items in index order and addresses them by pointer; a pointer is
rendered here as a `Fin n` identifier). Pointer fields `next` and `last`
become total functions on identifiers, the `std::set<CircularItem *>` member
`skipped` becomes a strictly sorted list of identifiers (the set iterates in
pointer order, which is allocation = index order), and the mutex is dropped:
every public operation of the source holds the single lock for its whole
body, so an operation is one atomic state transition.
-/

set_option autoImplicit false

/-- Pointwise functional update, modelling an assignment through a slot
pointer such as `item->setNext(x)`. -/
def upd {n : Nat} {β : Type} (f : Fin n → β) (x : Fin n) (v : β) : Fin n → β :=
  fun y => if y = x then v else f y

/-- State of `CircularBuffer<T>`: the payloads (`data`), the per-item `valid`
flag and `semaphore` counter of `CircularItem`, the `next` / `last` ring
links, the two distinguished positions `current` and `final`, and the
`skipped` set. The capacity `n` is the length of the `items` vector, fixed
at construction. -/
structure CircularBuffer (n : Nat) (α : Type) where
  data : Fin n → α
  valid : Fin n → Bool
  semaphore : Fin n → Nat
  next : Fin n → Fin n
  last : Fin n → Fin n
  current : Fin n
  final : Fin n
  skipped : List (Fin n)

attribute [ext] CircularBuffer

namespace CircularItem

/-- Main variant, `CircularItem::hold`: `semaphore++`. -/
def hold (s : Nat) : Nat := s + 1

/-- Main variant, `CircularItem::release`:
`assert(semaphore != 0); semaphore--;`. The assertion is modelled as the
`none` outcome (in a debug build the program halts there); otherwise the
counter is decremented. -/
def release (s : Nat) : Option Nat :=
  if s = 0 then none else some (s - 1)

/-- Main variant, `CircularItem::isUsed`: `semaphore != 0`. -/
def isUsed (s : Nat) : Bool := s != 0

end CircularItem

namespace LibraryVariant

/-- Library variant, `CircularItem::release`:
`if (semaphore > 0) semaphore--;`. A release at counter zero is silently
ignored; no assertion exists in this variant. -/
def release (s : Nat) : Nat :=
  if 0 < s then s - 1 else s

end LibraryVariant

namespace CircularBuffer

variable {n : Nat} {α : Type}

/-- Availability test used by `getNewCurrent`:
`item->isValid() && !item->isUsed()`. -/
def avail (b : CircularBuffer n α) (i : Fin n) : Bool :=
  b.valid i && b.semaphore i == 0

/-- Insertion into the sorted-identifier rendering of
`std::set<CircularItem *>::insert` (no duplicates, kept in order). -/
def insSorted (x : Fin n) : List (Fin n) → List (Fin n)
  | [] => [x]
  | y :: ys => if x = y then y :: ys
               else if x < y then x :: y :: ys
               else y :: insSorted x ys

/-- Result of the scan loop inside `getNewCurrent`: an available item was
found (with the list of rejected items inserted into `skipped` on the way),
or the walk came back to `current` (the `return nullptr` branch, again with
the rejected items), or the walk failed to come back within the fuel bound
(the C++ loop would not have terminated yet). -/
inductive ScanRes (n : Nat) where
  | found : Fin n → List (Fin n) → ScanRes n
  | stop : List (Fin n) → ScanRes n
  | fuelOut : ScanRes n
deriving DecidableEq

/-- The `while (true)` scan of `getNewCurrent`: step to `item->getNext()`;
if it is `current` give up; if it is valid and unused take it; otherwise
record it as skipped and continue. `fuel` bounds the number of steps so the
definition is total; the operation below runs it with fuel `n`, which is
enough whenever the walk from `current` is a cycle (as it is in every state
the constructor and the operations produce). -/
def scanAux (b : CircularBuffer n α) : Nat → Fin n → List (Fin n) → ScanRes n
  | 0, _, _ => ScanRes.fuelOut
  | fuel + 1, it, rej =>
      let nxt := b.next it
      if nxt = b.current then ScanRes.stop rej
      else if b.avail nxt then ScanRes.found nxt rej
      else scanAux b fuel nxt (rej ++ [nxt])

/-- Relinking tail of `getNewCurrent`, applied to the already-updated state
(skip set and `final` already written): `item->setLast(current);
current->setNext(final); final->setLast(current); item->setValid(false);`. -/
def relinkAcquire (b : CircularBuffer n α) (it : Fin n) : CircularBuffer n α :=
  let b1 := { b with last := upd b.last it b.current }
  let b2 := { b1 with next := upd b1.next b1.current b1.final }
  let b3 := { b2 with last := upd b2.last b2.final b2.current }
  { b3 with valid := upd b3.valid it false }

/-- Main variant, `CircularBuffer::getNewCurrent`. First the `skipped` set is
searched for a valid unused item (erased and taken if found, leaving `final`
untouched); otherwise the ring is scanned from `current`, rejected items are
inserted into `skipped`, and on success `final` is advanced to the successor
of the chosen item. The outer `Option` is `none` only when the scan loop
runs out of fuel, that is, on states where the C++ loop would not terminate;
`some (none, _)` is the `return nullptr` (buffer-full) outcome. -/
def getNewCurrent (b : CircularBuffer n α) :
    Option (Option (Fin n) × CircularBuffer n α) :=
  match b.skipped.find? (fun i => b.avail i) with
  | some it =>
      some (some it, relinkAcquire { b with skipped := b.skipped.erase it } it)
  | none =>
      match scanAux b n b.current [] with
      | ScanRes.fuelOut => none
      | ScanRes.stop rej =>
          some (none, { b with skipped := rej.foldl (fun s j => insSorted j s) b.skipped })
      | ScanRes.found it rej =>
          let bS := { b with skipped := rej.foldl (fun s j => insSorted j s) b.skipped }
          let b1 := { bS with final := b.next it }
          some (some it, relinkAcquire b1 it)

/-- Main variant, `CircularBuffer::setNewReady`: `current->setNext(item);
current = item; current->setNext(final); final->setLast(current);
item->setValid(true);`. -/
def setNewReady (b : CircularBuffer n α) (it : Fin n) : CircularBuffer n α :=
  let b1 := { b with next := upd b.next b.current it }
  let b2 := { b1 with current := it }
  let b3 := { b2 with next := upd b2.next b2.current b2.final }
  let b4 := { b3 with last := upd b3.last b3.final b3.current }
  { b4 with valid := upd b4.valid it true }

/-- `CircularBuffer::holdItem`: increment the semaphore of the item. -/
def holdItem (b : CircularBuffer n α) (i : Fin n) : CircularBuffer n α :=
  { b with semaphore := upd b.semaphore i (CircularItem.hold (b.semaphore i)) }

/-- Main variant, `CircularBuffer::releaseItem`: decrement the semaphore of
the item; `none` models the assertion failure of `CircularItem::release` on
a zero count. -/
def releaseItem (b : CircularBuffer n α) (i : Fin n) :
    Option (CircularBuffer n α) :=
  match CircularItem.release (b.semaphore i) with
  | none => none
  | some s => some { b with semaphore := upd b.semaphore i s }

/-- Main variant, `CircularBuffer::getCurrent()`: hold and return `current`.
The pair is the returned item together with the updated buffer. -/
def getCurrent (b : CircularBuffer n α) : Fin n × CircularBuffer n α :=
  (b.current, b.holdItem b.current)

/-- Main variant, `CircularBuffer::getFinal()`: hold and return `final`. -/
def getFinal (b : CircularBuffer n α) : Fin n × CircularBuffer n α :=
  (b.final, b.holdItem b.final)

/-- Walk of `CircularBuffer::getNth`: from `current`, step `item =
item->getLast()` `nth` times, failing with `nullptr` as soon as a step
lands back on `current`. -/
def goNth (b : CircularBuffer n α) : Nat → Fin n → Option (Fin n)
  | 0, it => some it
  | m + 1, it =>
      let prv := b.last it
      if prv = b.current then none else goNth b m prv

/-- Main variant, `CircularBuffer::getNth`: the walk above, holding the item
on success. -/
def getNth (b : CircularBuffer n α) (nth : Nat) :
    Option (Fin n) × CircularBuffer n α :=
  match goNth b nth b.current with
  | none => (none, b)
  | some it => (some it, b.holdItem it)

/-- Collection loop of `CircularBuffer::getCurrent(std::size_t n)`: starting
after `current` was taken, walk `getLast` from the most recently taken item,
stopping early when the walk reaches `current` again. -/
def getCurrentNAux (b : CircularBuffer n α) :
    Nat → Fin n → List (Fin n) → List (Fin n)
  | 0, _, acc => acc
  | m + 1, it, acc =>
      let prv := b.last it
      if prv = b.current then acc else getCurrentNAux b m prv (acc ++ [prv])

/-- Main variant, `CircularBuffer::getCurrent(std::size_t n)`: `current` is
held and pushed unconditionally, then up to `n - 1` predecessors are
collected. The loop `for (i = 1; i < n; ++i)` runs `n - 1` times (and zero
times for `n = 0`, so the result then still holds exactly `current`). -/
def getCurrentN (b : CircularBuffer n α) (cnt : Nat) :
    List (Fin n) × CircularBuffer n α :=
  let taken := b.current :: getCurrentNAux b (cnt - 1) b.current []
  (taken, taken.foldl (fun bb x => bb.holdItem x) b)

/-- Collection loop of `CircularBuffer::getFinal(std::size_t n)`: walk
`getNext` from the most recently taken item, stopping early when the walk
reaches `final` again. -/
def getFinalNAux (b : CircularBuffer n α) :
    Nat → Fin n → List (Fin n) → List (Fin n)
  | 0, _, acc => acc
  | m + 1, it, acc =>
      let nxt := b.next it
      if nxt = b.final then acc else getFinalNAux b m nxt (acc ++ [nxt])

/-- Main variant, `CircularBuffer::getFinal(std::size_t n)`: `final` is held
and pushed unconditionally, then up to `n - 1` successors are collected. -/
def getFinalN (b : CircularBuffer n α) (cnt : Nat) :
    List (Fin n) × CircularBuffer n α :=
  let taken := b.final :: getFinalNAux b (cnt - 1) b.final []
  (taken, taken.foldl (fun bb x => bb.holdItem x) b)

/-- Failure outcomes of construction. `outOfBoundsAccess` models the
undefined behaviour of the constructor body on a zero-size `items` vector
(`items.size() - 1` wraps around, so `items[i]` and `items.back()` are
evaluated on an empty vector); `invalidConfiguration` is the error named by
the specification, which no code path produces. -/
inductive BuildError where
  | outOfBoundsAccess
  | invalidConfiguration
deriving DecidableEq

/-- Ring produced by the constructor body for `n > 0`: the loop links
`items[i] -> items[i+1]` for `i < n - 1`, then `items.back()` is linked to
`items.front()`, `current = items.back()`, `final = items.front()`. Every
payload is the default-constructed value `new T{}`, every item starts
`valid = true`, `semaphore = 0`, and `skipped` is empty. -/
def initRing (n : Nat) (h : 0 < n) (dflt : α) : CircularBuffer n α where
  data := fun _ => dflt
  valid := fun _ => true
  semaphore := fun _ => 0
  next := fun i => if h2 : i.val = n - 1 then ⟨0, h⟩ else
    ⟨i.val + 1, by have := i.isLt; omega⟩
  last := fun i => if h2 : i.val = 0 then ⟨n - 1, by omega⟩ else
    ⟨i.val - 1, by have := i.isLt; omega⟩
  current := ⟨n - 1, by omega⟩
  final := ⟨0, h⟩
  skipped := []

/-- Main variant, constructor `CircularBuffer(std::size_t size)`: for a
positive size it produces `initRing`; for size zero the body performs an
out-of-bounds vector access. -/
def create (α : Type) (dflt : α) (n : Nat) :
    Except BuildError (CircularBuffer n α) :=
  if h : 0 < n then Except.ok (initRing n h dflt)
  else Except.error BuildError.outOfBoundsAccess

/-- Iterated `next` link: `nextIter b k i` is the slot reached from `i` by
following `getNext` `k` times. -/
def nextIter (b : CircularBuffer n α) : Nat → Fin n → Fin n
  | 0, i => i
  | k + 1, i => b.nextIter k (b.next i)

/-- Iterated `last` link. -/
def lastIter (b : CircularBuffer n α) : Nat → Fin n → Fin n
  | 0, i => i
  | k + 1, i => b.lastIter k (b.last i)

/-- The buffer state after a successful `getNewCurrent`, used to name
intermediate states of concrete traces (the call also returns the acquired
item, see `acquiredItem`). When the call reports buffer-full or is out of
fuel, the state recorded by this definition is the returned one, resp. the
input. -/
def acquiredBuf (b : CircularBuffer n α) : CircularBuffer n α :=
  match b.getNewCurrent with
  | some (_, b2) => b2
  | none => b

/-- The item returned by `getNewCurrent`, if any. -/
def acquiredItem (b : CircularBuffer n α) : Option (Fin n) :=
  match b.getNewCurrent with
  | some (o, _) => o
  | none => none

end CircularBuffer

/-! Basic lemmas about pointwise update and the constructed ring. -/

theorem upd_same {n : Nat} {β : Type} (f : Fin n → β) (x : Fin n) (v : β) :
    upd f x v x = v := by
  simp [upd]

theorem upd_other {n : Nat} {β : Type} (f : Fin n → β) (x : Fin n) (v : β)
    (y : Fin n) (h : y ≠ x) : upd f x v y = f y := by
  simp [upd, h]

namespace CircularBuffer

variable {n : Nat} {α : Type}

theorem initRing_next_val (h : 0 < n) (dflt : α) (i : Fin n) :
    ((initRing n h dflt).next i).val = (i.val + 1) % n := by
  have hi := i.isLt
  simp only [initRing]
  split
  · next heq =>
      have : i.val + 1 = n := by omega
      simp [this, Nat.mod_self]
  · next hne =>
      have : i.val + 1 < n := by omega
      simp [Nat.mod_eq_of_lt this]

theorem initRing_last_val (h : 0 < n) (dflt : α) (i : Fin n) :
    ((initRing n h dflt).last i).val = (i.val + (n - 1)) % n := by
  have hi := i.isLt
  simp only [initRing]
  split
  · next heq =>
      have : n - 1 < n := by omega
      simp [heq, Nat.mod_eq_of_lt this]
  · next hne =>
      have hsum : i.val + (n - 1) = (i.val - 1) + n := by omega
      have hlt : i.val - 1 < n := by omega
      simp [hsum, Nat.add_mod_right, Nat.mod_eq_of_lt hlt]

theorem nextIter_val_initRing (h : 0 < n) (dflt : α) (k : Nat) (i : Fin n) :
    (((initRing n h dflt) : CircularBuffer n α).nextIter k i).val
      = (i.val + k) % n := by
  induction k generalizing i with
  | zero => simp [nextIter, Nat.mod_eq_of_lt i.isLt]
  | succ m ih =>
      show (((initRing n h dflt)).nextIter m ((initRing n h dflt).next i)).val = _
      rw [ih, initRing_next_val h dflt i, Nat.mod_add_mod]
      congr 1
      omega

theorem lastIter_val_initRing (h : 0 < n) (dflt : α) (k : Nat) (i : Fin n) :
    (((initRing n h dflt) : CircularBuffer n α).lastIter k i).val
      = (i.val + k * (n - 1)) % n := by
  induction k generalizing i with
  | zero => simp [lastIter, Nat.mod_eq_of_lt i.isLt]
  | succ m ih =>
      show (((initRing n h dflt)).lastIter m ((initRing n h dflt).last i)).val = _
      rw [ih, initRing_last_val h dflt i, Nat.mod_add_mod]
      congr 1
      ring

theorem initRing_nextIter_closure (h : 0 < n) (dflt : α) (i : Fin n) :
    ((initRing n h dflt) : CircularBuffer n α).nextIter n i = i := by
  apply Fin.ext
  rw [nextIter_val_initRing h dflt n i, Nat.add_mod_right,
    Nat.mod_eq_of_lt i.isLt]

theorem initRing_lastIter_closure (h : 0 < n) (dflt : α) (i : Fin n) :
    ((initRing n h dflt) : CircularBuffer n α).lastIter n i = i := by
  apply Fin.ext
  rw [lastIter_val_initRing h dflt n i]
  have : i.val + n * (n - 1) = i.val + (n - 1) * n := by ring
  rw [this, Nat.add_mul_mod_self_right, Nat.mod_eq_of_lt i.isLt]

theorem initRing_nextIter_min (h : 0 < n) (dflt : α) (k : Nat)
    (hk0 : 0 < k) (hkn : k < n) :
    ((initRing n h dflt) : CircularBuffer n α).nextIter k
      (initRing n h dflt).final ≠ (initRing n h dflt).final := by
  intro hcon
  have hv := congrArg Fin.val hcon
  rw [nextIter_val_initRing h dflt k] at hv
  have hfv : ((initRing n h dflt (α := α)).final).val = 0 := rfl
  rw [hfv, Nat.zero_add, Nat.mod_eq_of_lt hkn] at hv
  omega

end CircularBuffer

/-! Concrete buffers used by witnesses and counterexamples. -/

/-- Fresh ring of capacity 2 over Nat payloads. -/
def ringTwo : CircularBuffer 2 Nat := CircularBuffer.initRing 2 (by omega) 0

/-- Fresh ring of capacity 3 over Nat payloads. -/
def ringThree : CircularBuffer 3 Nat := CircularBuffer.initRing 3 (by omega) 0

/-- State of `ringThree` after one `getNewCurrent`. -/
def ringThreeAcq : CircularBuffer 3 Nat := CircularBuffer.acquiredBuf ringThree

/-- C10: calling the window accessors with `n == 0` returns a collection with
exactly one element: `getCurrent(0)` holds exactly the current slot and
`getFinal(0)` holds exactly the final slot, because both push the anchor
item before entering the loop `for (i = 1; i < n; ++i)`, which runs zero
times. -/
theorem c10_zero_window (m : Nat) (β : Type) (b : CircularBuffer m β) :
    (b.getCurrentN 0).1 = [b.current] ∧ (b.getFinalN 0).1 = [b.final] :=
  ⟨rfl, rfl⟩

/-- C2, counterexample: constructing with capacity 0 does not produce the
`InvalidConfiguration` error: the constructor body underflows
`items.size() - 1` and evaluates `items[i]` / `items.back()` on an empty
vector, an out-of-bounds access. No code path reports `InvalidConfiguration`. -/
theorem c2_zero_capacity_counterexample :
    CircularBuffer.create Nat 0 0
        = Except.error CircularBuffer.BuildError.outOfBoundsAccess ∧
    CircularBuffer.create Nat 0 0
        ≠ Except.error CircularBuffer.BuildError.invalidConfiguration := by
  refine ⟨rfl, ?_⟩
  intro hcon
  simp [CircularBuffer.create] at hcon

/-- C2, amended: construction with capacity 0 performs an out-of-bounds
vector access (undefined behaviour) rather than failing with
`InvalidConfiguration`; for every capacity `N >= 1` construction succeeds
and produces a closed ring over exactly `N` slots (following `next` or
`last` from any slot returns to it after `N` steps and, from `final`, not
earlier). -/
theorem c2_construction_amended (α : Type) (dflt : α) (n : Nat) (h : 0 < n) :
    CircularBuffer.create α dflt 0
        = Except.error CircularBuffer.BuildError.outOfBoundsAccess ∧
    (∃ b : CircularBuffer n α,
      CircularBuffer.create α dflt n = Except.ok b ∧
      (∀ i : Fin n, b.nextIter n i = i ∧ b.lastIter n i = i) ∧
      (∀ k, 0 < k → k < n → b.nextIter k b.final ≠ b.final)) := by
  refine ⟨rfl, CircularBuffer.initRing n h dflt, ?_, ?_, ?_⟩
  · simp [CircularBuffer.create, h]
  · exact fun i => ⟨CircularBuffer.initRing_nextIter_closure h dflt i,
      CircularBuffer.initRing_lastIter_closure h dflt i⟩
  · exact fun k hk0 hkn => CircularBuffer.initRing_nextIter_min h dflt k hk0 hkn

/-- C2, witness: the amended statement instantiated at capacity 3. -/
theorem c2_construction_amended_witness :
    CircularBuffer.create Nat 0 0
        = Except.error CircularBuffer.BuildError.outOfBoundsAccess ∧
    (∃ b : CircularBuffer 3 Nat,
      CircularBuffer.create Nat 0 3 = Except.ok b ∧
      (∀ i : Fin 3, b.nextIter 3 i = i ∧ b.lastIter 3 i = i) ∧
      (∀ k, 0 < k → k < 3 → b.nextIter k b.final ≠ b.final)) :=
  c2_construction_amended Nat 0 3 (by omega)

/-- C4, counterexample: on a freshly constructed buffer of capacity 3,
`getNewCurrent` completes and acquires slot 0, and in the resulting state
following `next` (or `last`) three times from slot 1 does not return to
slot 1: the acquired slot is unlinked from the ring, so closure fails right
after a completed `acquireForWrite`. -/
theorem c4_ring_closure_counterexample :
    CircularBuffer.acquiredItem ringThree = some 0 ∧
    CircularBuffer.nextIter ringThreeAcq 3 1 ≠ 1 ∧
    CircularBuffer.lastIter ringThreeAcq 3 1 ≠ 1 := by decide

/-- C4, amended: the full ring closure holds after construction (for every
capacity `N >= 1`, following `next` or `last` from any slot returns to it
after exactly `N` steps); after a successful `getNewCurrent` and after any
`setNewReady` only the cut invariant `current.next == final` and
`final.last == current` is guaranteed, full closure over all `N` slots may
fail because the acquired slot is unlinked until it is published. -/
theorem c4_ring_closure_amended (α : Type) (n : Nat) (h : 0 < n) (dflt : α)
    (b b1 b2 : CircularBuffer n α) (it : Fin n)
    (hacq : b.getNewCurrent = some (some it, b1)) :
    (∀ i : Fin n, (CircularBuffer.initRing n h dflt).nextIter n i = i ∧
      (CircularBuffer.initRing n h dflt).lastIter n i = i) ∧
    (b1.next b1.current = b1.final ∧ b1.last b1.final = b1.current) ∧
    ((b2.setNewReady it).next (b2.setNewReady it).current
        = (b2.setNewReady it).final ∧
     (b2.setNewReady it).last (b2.setNewReady it).final
        = (b2.setNewReady it).current) := by
  refine ⟨fun i => ⟨CircularBuffer.initRing_nextIter_closure h dflt i,
      CircularBuffer.initRing_lastIter_closure h dflt i⟩, ?_, ?_⟩
  · unfold CircularBuffer.getNewCurrent at hacq
    cases hfind : b.skipped.find? (fun i => b.avail i) with
    | none =>
        rw [hfind] at hacq
        cases hscan : CircularBuffer.scanAux b n b.current [] with
        | fuelOut => rw [hscan] at hacq; simp at hacq
        | stop rej => rw [hscan] at hacq; simp at hacq
        | found x rej =>
            rw [hscan] at hacq
            simp at hacq
            obtain ⟨rfl, rfl⟩ := hacq
            constructor <;> simp [CircularBuffer.relinkAcquire, upd]
    | some x =>
        rw [hfind] at hacq
        simp at hacq
        obtain ⟨rfl, rfl⟩ := hacq
        constructor <;> simp [CircularBuffer.relinkAcquire, upd]
  · constructor <;> simp [CircularBuffer.setNewReady, upd]

/-- C4, witness: the amended statement instantiated at capacity 3, with the
acquire step performed on a fresh ring (it acquires slot 0) and the publish
step applied to the same buffer. -/
theorem c4_ring_closure_amended_witness :
    (∀ i : Fin 3,
      (CircularBuffer.initRing 3 (by omega) (0 : Nat)).nextIter 3 i = i ∧
      (CircularBuffer.initRing 3 (by omega) (0 : Nat)).lastIter 3 i = i) ∧
    (ringThreeAcq.next ringThreeAcq.current = ringThreeAcq.final ∧
     ringThreeAcq.last ringThreeAcq.final = ringThreeAcq.current) ∧
    ((ringThree.setNewReady 0).next (ringThree.setNewReady 0).current
        = (ringThree.setNewReady 0).final ∧
     (ringThree.setNewReady 0).last (ringThree.setNewReady 0).final
        = (ringThree.setNewReady 0).current) :=
  c4_ring_closure_amended Nat 3 (by omega) 0 ringThree ringThreeAcq ringThree 0 rfl

/-! Lemmas about the reuse scan of `getNewCurrent`. -/

namespace CircularBuffer

variable {n : Nat} {α : Type}

theorem nextIter_shift (b : CircularBuffer n α) (k : Nat) (i : Fin n) :
    b.nextIter (k + 1) i = b.nextIter k (b.next i) := rfl

theorem nextIter_add (b : CircularBuffer n α) (p q : Nat) (i : Fin n) :
    b.nextIter (p + q) i = b.nextIter p (b.nextIter q i) := by
  induction q generalizing i with
  | zero => rfl
  | succ m ih =>
      have : p + (m + 1) = (p + m) + 1 := by omega
      rw [this, nextIter_shift, ih, ← nextIter_shift]

theorem nextIter_congr (b1 b2 : CircularBuffer n α) (h : b1.next = b2.next)
    (k : Nat) (i : Fin n) : b1.nextIter k i = b2.nextIter k i := by
  induction k generalizing i with
  | zero => rfl
  | succ m ih => rw [nextIter_shift, nextIter_shift, h, ih]

theorem mem_insSorted (x y : Fin n) (l : List (Fin n)) :
    y ∈ insSorted x l ↔ y = x ∨ y ∈ l := by
  induction l with
  | nil => simp [insSorted]
  | cons z zs ih =>
      by_cases h1 : x = z
      · subst h1
        simp [insSorted]
      · by_cases h2 : x < z
        · simp [insSorted, h1, h2]
        · simp [insSorted, h1, h2, ih]
          tauto

theorem mem_foldl_insSorted (l acc : List (Fin n)) (y : Fin n) :
    y ∈ l.foldl (fun s j => insSorted j s) acc ↔ y ∈ acc ∨ y ∈ l := by
  induction l generalizing acc with
  | nil => simp
  | cons z zs ih =>
      simp only [List.foldl_cons, ih, mem_insSorted, List.mem_cons]
      tauto

/-- Full characterisation of a successful scan: the found item is the first
slot along the `next` walk from the start that is valid and unused and is
not `current`; every strictly earlier slot of the walk was rejected and
collected. -/
theorem scanAux_found_spec (b : CircularBuffer n α) :
    ∀ (fuel : Nat) (it0 : Fin n) (rej0 : List (Fin n)) (itF : Fin n)
      (rejF : List (Fin n)),
    scanAux b fuel it0 rej0 = ScanRes.found itF rejF →
    ∃ k, 0 < k ∧ k ≤ fuel ∧ itF = b.nextIter k it0 ∧
      (∀ m, 0 < m → m < k →
        b.nextIter m it0 ≠ b.current ∧ b.avail (b.nextIter m it0) = false) ∧
      itF ≠ b.current ∧ b.avail itF = true ∧
      rejF = rej0 ++ (List.range (k - 1)).map (fun m => b.nextIter (m + 1) it0)
  | 0, it0, rej0, itF, rejF => by
      intro h
      simp [scanAux] at h
  | fuel + 1, it0, rej0, itF, rejF => by
      intro h
      simp only [scanAux] at h
      by_cases hc : b.next it0 = b.current
      · rw [if_pos hc] at h
        cases h
      · rw [if_neg hc] at h
        by_cases ha : b.avail (b.next it0) = true
        · rw [if_pos ha] at h
          cases h
          refine ⟨1, by omega, by omega, rfl, ?_, hc, ha, by simp⟩
          intro m hm0 hm1
          omega
        · rw [if_neg ha] at h
          obtain ⟨k, hk0, hkle, hit, hmid, hnc, hav, hrej⟩ :=
            scanAux_found_spec b fuel (b.next it0) (rej0 ++ [b.next it0]) itF rejF h
          refine ⟨k + 1, by omega, by omega, hit, ?_, hnc, hav, ?_⟩
          · intro m hm0 hmk
            match m, hm0 with
            | 1, _ =>
                exact ⟨hc, by simpa using ha⟩
            | m' + 2, _ =>
                have := hmid (m' + 1) (by omega) (by omega)
                exact this
          · rw [hrej]
            obtain ⟨kk, rfl⟩ : ∃ kk, k = kk + 1 := ⟨k - 1, by omega⟩
            simp only [Nat.add_sub_cancel, List.range_succ_eq_map,
              List.map_cons, List.map_map, List.append_assoc,
              List.singleton_append]
            rfl

/-- If no slot at all is available and the walk from the start returns to
`current` within the fuel bound, the scan takes the `return nullptr`
branch. -/
theorem scanAux_stops (b : CircularBuffer n α)
    (hall : ∀ i, b.avail i = false) :
    ∀ (fuel : Nat) (it0 : Fin n) (rej0 : List (Fin n)),
    (∃ k, 0 < k ∧ k ≤ fuel ∧ b.nextIter k it0 = b.current) →
    ∃ rejF, scanAux b fuel it0 rej0 = ScanRes.stop rejF
  | 0, it0, rej0 => by
      rintro ⟨k, hk0, hkle, _⟩
      omega
  | fuel + 1, it0, rej0 => by
      rintro ⟨k, hk0, hkle, hkeq⟩
      simp only [scanAux]
      by_cases hc : b.next it0 = b.current
      · rw [if_pos hc]
        exact ⟨rej0, rfl⟩
      · rw [if_neg hc, if_neg (by simp [hall])]
        apply scanAux_stops b hall fuel
        match k, hk0 with
        | 1, _ => exact absurd hkeq hc
        | kk + 2, _ =>
            exact ⟨kk + 1, by omega, by omega, hkeq⟩

/-- If exactly one slot is available, it is not `current`, it lies on the
walk from the start within the fuel bound, and the walk does not pass
through `current` strictly before it, then the scan finds it. -/
theorem scanAux_finds_unique (b : CircularBuffer n α) (j : Fin n)
    (hone : ∀ i, b.avail i = true ↔ i = j) (hjc : j ≠ b.current) :
    ∀ (fuel : Nat) (it0 : Fin n) (rej0 : List (Fin n)) (d : Nat),
    0 < d → d ≤ fuel → b.nextIter d it0 = j →
    (∀ m, 0 < m → m < d → b.nextIter m it0 ≠ b.current) →
    ∃ rejF, scanAux b fuel it0 rej0 = ScanRes.found j rejF
  | 0, it0, rej0, d => by
      intro hd0 hdle _ _
      omega
  | fuel + 1, it0, rej0, d => by
      intro hd0 hdle hdj hmid
      simp only [scanAux]
      by_cases hc : b.next it0 = b.current
      · exfalso
        match d, hd0 with
        | 1, _ => exact hjc (hdj ▸ hc ▸ rfl)
        | dd + 2, _ => exact hmid 1 (by omega) (by omega) hc
      · rw [if_neg hc]
        by_cases ha : b.avail (b.next it0) = true
        · rw [if_pos ha]
          have : b.next it0 = j := (hone (b.next it0)).mp ha
          exact ⟨rej0, by rw [this]⟩
        · rw [if_neg ha]
          have hnj : b.next it0 ≠ j := by
            intro hcon
            exact ha ((hone (b.next it0)).mpr hcon)
          match d, hd0 with
          | 1, _ => exact absurd hdj hnj
          | dd + 2, _ =>
              apply scanAux_finds_unique b j hone hjc fuel (b.next it0)
                (rej0 ++ [b.next it0]) (dd + 1) (by omega) (by omega) hdj
              intro m hm0 hmd
              exact hmid (m + 1) (by omega) (by omega)

/-- If the walk from `current` first returns to `current` after exactly `n`
steps, it visits every slot. -/
theorem orbit_covers (b : CircularBuffer n α)
    (hn : b.nextIter n b.current = b.current)
    (hp : ∀ m, 0 < m → m < n → b.nextIter m b.current ≠ b.current)
    (j : Fin n) : ∃ d, d < n ∧ b.nextIter d b.current = j := by
  have hinj : Function.Injective
      (fun k : Fin n => b.nextIter k.val b.current) := by
    intro a c hac
    by_contra hne
    rcases Nat.lt_or_ge a.val c.val with hlt | hge
    · have h1 := congrArg (b.nextIter (n - c.val)) hac
      rw [← nextIter_add, ← nextIter_add] at h1
      have hcn : n - c.val + c.val = n := by omega
      rw [hcn, hn] at h1
      exact hp (n - c.val + a.val) (by omega) (by have := c.isLt; omega)
        h1
    · have hlt2 : c.val < a.val := by
        rcases Nat.lt_or_ge c.val a.val with h2 | h2
        · exact h2
        · exact absurd (Fin.ext (by omega)) hne
      have h1 := congrArg (b.nextIter (n - a.val)) hac.symm
      rw [← nextIter_add, ← nextIter_add] at h1
      have hcn : n - a.val + a.val = n := by omega
      rw [hcn, hn] at h1
      exact hp (n - a.val + c.val) (by omega) (by have := a.isLt; omega)
        h1
  have hsurj := Finite.injective_iff_surjective.mp hinj
  obtain ⟨d, hd⟩ := hsurj j
  exact ⟨d.val, d.isLt, hd⟩

end CircularBuffer

/-- C3: whenever `getNewCurrent` selects a reusable slot, then: if the slot
was drawn from the skip set, `final` is unchanged and the slot is erased
from the skip set; if not, the slot is the first available one on the
`next` walk from `current`, `final` advances to that slot's successor, and
the skip set grows by exactly the scanned-and-rejected slots (those
strictly between `current` and the chosen slot on the walk, each failing
the valid-and-unused test). -/
theorem c3_skipset_final_policy (n : Nat) (α : Type) (b b' : CircularBuffer n α)
    (it : Fin n) (hacq : b.getNewCurrent = some (some it, b')) :
    (it ∈ b.skipped →
      b'.final = b.final ∧ b'.skipped = b.skipped.erase it) ∧
    (it ∉ b.skipped →
      b'.final = b.next it ∧
      ∃ k, 0 < k ∧ it = b.nextIter k b.current ∧ b.avail it = true ∧
        (∀ m, 0 < m → m < k → b.avail (b.nextIter m b.current) = false) ∧
        (∀ x, x ∈ b'.skipped ↔ x ∈ b.skipped ∨
          ∃ m, 0 < m ∧ m < k ∧ x = b.nextIter m b.current)) := by
  unfold CircularBuffer.getNewCurrent at hacq
  cases hfind : b.skipped.find? (fun i => b.avail i) with
  | some x =>
      rw [hfind] at hacq
      simp at hacq
      obtain ⟨rfl, rfl⟩ := hacq
      have hmem : x ∈ b.skipped := List.mem_of_find?_eq_some hfind
      constructor
      · intro _
        exact ⟨rfl, rfl⟩
      · intro hnot
        exact absurd hmem hnot
  | none =>
      rw [hfind] at hacq
      have hnone := List.find?_eq_none.mp hfind
      cases hscan : CircularBuffer.scanAux b n b.current [] with
      | fuelOut => rw [hscan] at hacq; cases hacq
      | stop rej => rw [hscan] at hacq; simp at hacq
      | found y rej =>
          rw [hscan] at hacq
          simp at hacq
          obtain ⟨rfl, rfl⟩ := hacq
          obtain ⟨k, hk0, hkle, hity, hmid, hync, hyav, hrej⟩ :=
            CircularBuffer.scanAux_found_spec b n b.current [] y rej hscan
          have hnotmem : y ∉ b.skipped := by
            intro hmem
            exact (hnone y hmem) (by simp [hyav])
          constructor
          · intro hmem
            exact absurd hmem hnotmem
          · intro _
            refine ⟨rfl, k, hk0, hity, hyav,
              fun m hm0 hmk => (hmid m hm0 hmk).2, ?_⟩
            intro x
            show x ∈ rej.foldl (fun s j => CircularBuffer.insSorted j s)
              b.skipped ↔ _
            rw [CircularBuffer.mem_foldl_insSorted, hrej]
            simp only [List.nil_append, List.mem_map, List.mem_range]
            constructor
            · rintro (hx | ⟨m, hmlt, rfl⟩)
              · exact Or.inl hx
              · exact Or.inr ⟨m + 1, by omega, by omega, rfl⟩
            · rintro (hx | ⟨m, hm0, hmk, rfl⟩)
              · exact Or.inl hx
              · refine Or.inr ⟨m - 1, by omega, ?_⟩
                congr 1
                omega

/-- C3, witness: the scan-path case on a fresh ring of capacity 3, where
`getNewCurrent` picks slot 0 (the successor of `current`, with an empty
skip set). -/
theorem c3_skipset_final_policy_witness :
    ((0 : Fin 3) ∈ ringThree.skipped →
      ringThreeAcq.final = ringThree.final ∧
      ringThreeAcq.skipped = ringThree.skipped.erase 0) ∧
    ((0 : Fin 3) ∉ ringThree.skipped →
      ringThreeAcq.final = ringThree.next 0 ∧
      ∃ k, 0 < k ∧ (0 : Fin 3) = ringThree.nextIter k ringThree.current ∧
        ringThree.avail 0 = true ∧
        (∀ m, 0 < m → m < k →
          ringThree.avail (ringThree.nextIter m ringThree.current) = false) ∧
        (∀ x, x ∈ ringThreeAcq.skipped ↔ x ∈ ringThree.skipped ∨
          ∃ m, 0 < m ∧ m < k ∧ x = ringThree.nextIter m ringThree.current)) :=
  c3_skipset_final_policy 3 Nat ringThree ringThreeAcq 0 rfl

/-- C9: in the main variant `getNewCurrent` never writes the `current`
member (the assignment is commented out in the source), so a successful
acquire leaves `current` unchanged and the acquired slot is distinct from
`current` (given that `current` is not in the skip set, which holds in
every state the operations produce, since the scan never inserts
`current`); the buffer-full outcome also leaves `current` unchanged; and
`setNewReady` is the operation that moves `current` to the published slot.
Consequently `getCurrent()` between an acquire and its publish still
returns the previously published slot, never the slot being written. -/
theorem c9_acquire_leaves_current (n : Nat) (α : Type) (b : CircularBuffer n α)
    (hcs : b.current ∉ b.skipped) :
    (∀ (it : Fin n) (b' : CircularBuffer n α),
        b.getNewCurrent = some (some it, b') →
        b'.current = b.current ∧ it ≠ b.current ∧
        (b'.getCurrent).1 = b.current) ∧
    (∀ b' : CircularBuffer n α,
        b.getNewCurrent = some (none, b') → b'.current = b.current) ∧
    (∀ (b2 : CircularBuffer n α) (it : Fin n),
        (b2.setNewReady it).current = it) := by
  refine ⟨?_, ?_, fun b2 it => rfl⟩
  · intro it b' hacq
    unfold CircularBuffer.getNewCurrent at hacq
    cases hfind : b.skipped.find? (fun i => b.avail i) with
    | some x =>
        rw [hfind] at hacq
        simp at hacq
        obtain ⟨rfl, rfl⟩ := hacq
        have hmem : x ∈ b.skipped := List.mem_of_find?_eq_some hfind
        have hne : x ≠ b.current := fun hcon => hcs (hcon ▸ hmem)
        exact ⟨rfl, hne, rfl⟩
    | none =>
        rw [hfind] at hacq
        cases hscan : CircularBuffer.scanAux b n b.current [] with
        | fuelOut => rw [hscan] at hacq; cases hacq
        | stop rej => rw [hscan] at hacq; simp at hacq
        | found y rej =>
            rw [hscan] at hacq
            simp at hacq
            obtain ⟨rfl, rfl⟩ := hacq
            obtain ⟨k, _, _, _, _, hync, _, _⟩ :=
              CircularBuffer.scanAux_found_spec b n b.current [] y rej hscan
            exact ⟨rfl, hync, rfl⟩
  · intro b' hacq
    unfold CircularBuffer.getNewCurrent at hacq
    cases hfind : b.skipped.find? (fun i => b.avail i) with
    | some x => rw [hfind] at hacq; simp at hacq
    | none =>
        rw [hfind] at hacq
        cases hscan : CircularBuffer.scanAux b n b.current [] with
        | fuelOut => rw [hscan] at hacq; cases hacq
        | found y rej => rw [hscan] at hacq; simp at hacq
        | stop rej =>
            rw [hscan] at hacq
            simp at hacq
            rw [← hacq]

/-- C9, witness: the statement instantiated on a fresh ring of capacity 3,
whose skip set is empty. -/
theorem c9_acquire_leaves_current_witness :
    (∀ (it : Fin 3) (b' : CircularBuffer 3 Nat),
        ringThree.getNewCurrent = some (some it, b') →
        b'.current = ringThree.current ∧ it ≠ ringThree.current ∧
        (b'.getCurrent).1 = ringThree.current) ∧
    (∀ b' : CircularBuffer 3 Nat,
        ringThree.getNewCurrent = some (none, b') →
        b'.current = ringThree.current) ∧
    (∀ (b2 : CircularBuffer 3 Nat) (it : Fin 3),
        (b2.setNewReady it).current = it) :=
  c9_acquire_leaves_current 3 Nat ringThree (by decide)

namespace CircularBuffer

variable {n : Nat} {α : Type}

theorem getNewCurrent_eq_of_skip (b : CircularBuffer n α) (j : Fin n)
    (hfind : b.skipped.find? (fun i => b.avail i) = some j) :
    b.getNewCurrent = some (some j,
      relinkAcquire { b with skipped := b.skipped.erase j } j) := by
  unfold getNewCurrent
  rw [hfind]

theorem getNewCurrent_eq_of_found (b : CircularBuffer n α) (j : Fin n)
    (rejF : List (Fin n))
    (hfind : b.skipped.find? (fun i => b.avail i) = none)
    (hfound : scanAux b n b.current [] = ScanRes.found j rejF) :
    b.getNewCurrent = some (some j,
      relinkAcquire
        { b with
            final := b.next j
            skipped := rejF.foldl (fun s i => insSorted i s) b.skipped } j) := by
  unfold getNewCurrent
  rw [hfind, hfound]

theorem getNewCurrent_eq_of_stop (b : CircularBuffer n α)
    (rejF : List (Fin n))
    (hfind : b.skipped.find? (fun i => b.avail i) = none)
    (hstop : scanAux b n b.current [] = ScanRes.stop rejF) :
    b.getNewCurrent = some (none,
      { b with skipped := rejF.foldl (fun s i => insSorted i s) b.skipped }) := by
  unfold getNewCurrent
  rw [hfind, hstop]

end CircularBuffer

/-! Concrete states for the C1 trace: both slots of a capacity-2 ring are
pinned once, the producer sees buffer-full, then one pin is released. -/

/-- Capacity-2 ring with both slots pinned once. -/
def pinnedTwo : CircularBuffer 2 Nat := (ringTwo.holdItem 0).holdItem 1

/-- State after the buffer-full `getNewCurrent` call on `pinnedTwo` (which
records slot 0 in the skip set). -/
def pinnedTwoFull : CircularBuffer 2 Nat := CircularBuffer.acquiredBuf pinnedTwo

/-- State after releasing the pin of slot 1 (which is `current`) in
`pinnedTwoFull`. -/
def pinnedTwoRel : CircularBuffer 2 Nat :=
  (pinnedTwoFull.releaseItem 1).getD pinnedTwoFull

/-- C1, counterexample: on a capacity-2 buffer with every slot pinned,
`getNewCurrent` returns the buffer-full signal, as the claim says; but
after releasing the single pin of slot 1 (the `current` slot) the next
`getNewCurrent` still returns the buffer-full signal, because the scan
starts at `current->getNext()` and stops on reaching `current`, so the
`current` slot itself is never considered for reuse. Releasing one pin
therefore does not always make the next acquire succeed. -/
theorem c1_release_any_pin_counterexample :
    (∀ i : Fin 2, pinnedTwo.valid i = true ∧ 0 < pinnedTwo.semaphore i) ∧
    pinnedTwo.getNewCurrent.map (fun p => p.1) = some none ∧
    (pinnedTwoFull.releaseItem 1).isSome = true ∧
    pinnedTwoRel.getNewCurrent.map (fun p => p.1) = some none := by
  decide

/-- C1, amended: on a buffer whose `next` walk from `current` is a full
cycle over all `N` slots, if no slot is available (each is pinned or
unpublished) then `getNewCurrent` returns the buffer-full signal; and
releasing a single pin unblocks the next `getNewCurrent` provided the
released slot is valid, is not the `current` slot, and its pin count drops
to zero — the next call then acquires exactly that slot. -/
theorem c1_backpressure_amended (n : Nat) (α : Type) (b : CircularBuffer n α)
    (j : Fin n)
    (hn : b.nextIter n b.current = b.current)
    (hp : ∀ m, 0 < m → m < n → b.nextIter m b.current ≠ b.current)
    (hall : ∀ i, b.avail i = false)
    (hj : j ≠ b.current) (hjv : b.valid j = true) (hjs : b.semaphore j = 1) :
    (∃ b2, b.getNewCurrent = some (none, b2)) ∧
    (∃ b3, b.releaseItem j = some b3 ∧
      ∃ b4, b3.getNewCurrent = some (some j, b4)) := by
  have hp0 : 0 < n := j.pos
  have hfind : b.skipped.find? (fun i => b.avail i) = none := by
    apply List.find?_eq_none.mpr
    intro x _
    simp [hall x]
  constructor
  · obtain ⟨rejF, hstop⟩ :=
      CircularBuffer.scanAux_stops b hall n b.current [] ⟨n, hp0, Nat.le_refl n, hn⟩
    refine ⟨{ b with skipped := rejF.foldl (fun s j => CircularBuffer.insSorted j s) b.skipped }, ?_⟩
    unfold CircularBuffer.getNewCurrent
    rw [hfind, hstop]
  · have hrel : b.releaseItem j
        = some { b with semaphore := upd b.semaphore j 0 } := by
      simp [CircularBuffer.releaseItem, CircularItem.release, hjs]
    refine ⟨{ b with semaphore := upd b.semaphore j 0 }, hrel, ?_⟩
    have hone : ∀ i : Fin n,
        ({ b with semaphore := upd b.semaphore j 0 } :
          CircularBuffer n α).avail i = true ↔ i = j := by
      intro i
      by_cases hij : i = j
      · subst hij
        simp [CircularBuffer.avail, upd, hjv]
      · have h1 : ({ b with semaphore := upd b.semaphore j 0 } :
            CircularBuffer n α).avail i = b.avail i := by
          simp [CircularBuffer.avail, upd, hij]
        rw [h1, hall i]
        simp [hij]
    have hnext : ({ b with semaphore := upd b.semaphore j 0 } :
        CircularBuffer n α).next = b.next := rfl
    cases hfind3 : ({ b with semaphore := upd b.semaphore j 0 } :
        CircularBuffer n α).skipped.find?
          (fun i => ({ b with semaphore := upd b.semaphore j 0 } :
            CircularBuffer n α).avail i) with
    | some x =>
        have hx := List.find?_some hfind3
        have hxj : x = j := (hone x).mp (by simpa using hx)
        subst hxj
        exact ⟨_, CircularBuffer.getNewCurrent_eq_of_skip _ x hfind3⟩
    | none =>
        obtain ⟨d, hdn, hdj⟩ := CircularBuffer.orbit_covers b hn hp j
        have hd0 : 0 < d := by
          rcases Nat.eq_zero_or_pos d with h0 | h0
          · exfalso
            apply hj
            rw [← hdj, h0]
            rfl
          · exact h0
        obtain ⟨rejF, hfound⟩ :=
          CircularBuffer.scanAux_finds_unique
            ({ b with semaphore := upd b.semaphore j 0 }) j hone
            (by simpa using hj) n b.current [] d hd0 (Nat.le_of_lt hdn)
            (by rw [CircularBuffer.nextIter_congr _ b hnext]; exact hdj)
            (by
              intro m hm0 hmd
              rw [CircularBuffer.nextIter_congr _ b hnext]
              exact hp m hm0 (by omega))
        exact ⟨_, CircularBuffer.getNewCurrent_eq_of_found _ j rejF hfind3 hfound⟩

/-- C1, witness: the amended statement on the concrete capacity-2 buffer
with both slots pinned once, releasing the pin of slot 0 (valid, distinct
from `current`, pin count dropping to zero); the next call acquires
slot 0. -/
theorem c1_backpressure_amended_witness :
    (∃ b2, pinnedTwo.getNewCurrent = some (none, b2)) ∧
    (∃ b3, pinnedTwo.releaseItem 0 = some b3 ∧
      ∃ b4, b3.getNewCurrent = some (some 0, b4)) :=
  c1_backpressure_amended 2 Nat pinnedTwo 0
    (by decide)
    (by
      intro m hm0 hm2
      have hm : m = 1 := by omega
      subst hm
      decide)
    (by decide) (by decide) (by decide) (by decide)

/-! Concrete states for the C5 trace: on a capacity-2 ring, the single
consumer pin forces a buffer-full scan that records slot 0 (which is
`final`) in the skip set; after the pin is released, the producer
re-acquires slot 0 through the skip path, which leaves `final` and the
ring links pointing at the slot being written. -/

/-- Capacity-2 ring with slot 0 (the `final` slot) pinned once. -/
def tornB1 : CircularBuffer 2 Nat := ringTwo.holdItem 0

/-- State after the buffer-full `getNewCurrent` call on `tornB1`. -/
def tornB2 : CircularBuffer 2 Nat := CircularBuffer.acquiredBuf tornB1

/-- State after the consumer releases its pin on slot 0. -/
def tornB3 : CircularBuffer 2 Nat := (tornB2.releaseItem 0).getD tornB2

/-- State after the producer re-acquires slot 0 through the skip path
(slot 0 is now marked invalid and is being written, but is still the
`final` slot of the readable window). -/
def tornB4 : CircularBuffer 2 Nat := CircularBuffer.acquiredBuf tornB3

/-- C5: the claim is right and the code is wrong. In the reachable state
`tornB4` (reached by: construct capacity 2, pin slot 0, get the buffer-full
signal, release the pin, acquire for write), the producer has re-acquired
slot 0 through the skip path; unlike the scan path, the skip path does not
advance `final` past the acquired slot, so slot 0 stays inside the readable
window while `valid == false`. The consumer accessor `getFinal()` then
returns slot 0 with `valid == false`: a consumer observes a mid-write slot,
contradicting the no-torn-reads property the specification states as the
core purpose of the container. -/
theorem c5_torn_read_code_bug :
    tornB1.getNewCurrent.map (fun p => p.1) = some none ∧
    (tornB2.releaseItem 0).isSome = true ∧
    tornB3.getNewCurrent.map (fun p => p.1) = some (some 0) ∧
    tornB4.valid 0 = false ∧
    (tornB4.getFinal).1 = 0 ∧
    tornB4.valid (tornB4.getFinal).1 = false := by
  decide

/-- One consumer-side pin operation, for stating pin-count accounting over
arbitrary call sequences of `holdItem` and `releaseItem`. -/
inductive PinOp (n : Nat) where
  | hold : Fin n → PinOp n
  | release : Fin n → PinOp n
deriving DecidableEq

/-- Run a sequence of `holdItem` / `releaseItem` calls on the main-variant
buffer; the run aborts (models the debug assertion) as soon as a release
hits a slot whose pin count is zero. -/
def runPinOps {n : Nat} {α : Type} (b : CircularBuffer n α) :
    List (PinOp n) → Option (CircularBuffer n α)
  | [] => some b
  | PinOp.hold i :: rest => runPinOps (b.holdItem i) rest
  | PinOp.release i :: rest =>
      match b.releaseItem i with
      | none => none
      | some b2 => runPinOps b2 rest

/-- Number of holds of slot `i` in a pin-operation sequence. -/
def countHold {n : Nat} (i : Fin n) : List (PinOp n) → Nat
  | [] => 0
  | PinOp.hold j :: rest => (if j = i then 1 else 0) + countHold i rest
  | PinOp.release _ :: rest => countHold i rest

/-- Number of releases of slot `i` in a pin-operation sequence. -/
def countRelease {n : Nat} (i : Fin n) : List (PinOp n) → Nat
  | [] => 0
  | PinOp.release j :: rest => (if j = i then 1 else 0) + countRelease i rest
  | PinOp.hold _ :: rest => countRelease i rest

/-- C8, counterexample: in the library variant `CircularItem::release` at a
zero count returns normally with the count unchanged — releasing a pin more
than once is silently ignored there, not reported; only the main variant
halts on its debug assertion (modelled as the `none` outcome). -/
theorem c8_double_release_counterexample :
    LibraryVariant.release 0 = 0 ∧ CircularItem.release 0 = none := by
  decide

/-- C8, amended: the pin count never wraps below zero in either variant: in
the main variant a release at count zero trips the debug assertion
(`releaseItem` aborts instead of decrementing), and any completed sequence
of hold/release operations satisfies exact accounting, with the final count
of each slot equal to initial count plus holds minus releases (stated
additively over `Nat`, so no wrap occurred); in the library variant a
release at count zero is silently ignored (count stays the same) and no
assertion or error reports the double release. -/
theorem c8_pin_accounting_amended (n : Nat) (α : Type)
    (b b2 : CircularBuffer n α) (ops : List (PinOp n))
    (hrun : runPinOps b ops = some b2) :
    (∀ i, b2.semaphore i + countRelease i ops
        = b.semaphore i + countHold i ops) ∧
    (∀ (b3 : CircularBuffer n α) (i : Fin n),
        b3.semaphore i = 0 → b3.releaseItem i = none) ∧
    (∀ s, CircularItem.release s = none ↔ s = 0) ∧
    LibraryVariant.release 0 = 0 ∧
    (∀ s, 0 < s → LibraryVariant.release s = s - 1) := by
  refine ⟨?_, ?_, ?_, rfl, ?_⟩
  · induction ops generalizing b with
    | nil =>
        intro i
        simp [runPinOps] at hrun
        rw [hrun]
        simp [countHold, countRelease]
    | cons op rest ih =>
        intro i
        cases op with
        | hold j =>
            have h2 := ih (b.holdItem j) hrun i
            simp only [countHold, countRelease] at h2 ⊢
            have hsem : (b.holdItem j).semaphore i
                = b.semaphore i + (if j = i then 1 else 0) := by
              by_cases hji : j = i
              · subst hji
                simp [CircularBuffer.holdItem, upd, CircularItem.hold]
              · have hij : i ≠ j := fun h => hji h.symm
                simp [CircularBuffer.holdItem, upd, CircularItem.hold,
                  hij, hji]
            omega
        | release j =>
            simp only [runPinOps] at hrun
            cases hstep : b.releaseItem j with
            | none => rw [hstep] at hrun; cases hrun
            | some b' =>
                rw [hstep] at hrun
                have h2 := ih b' hrun i
                have hjpos : 0 < b.semaphore j := by
                  by_contra hz
                  have hz0 : b.semaphore j = 0 := by omega
                  simp [CircularBuffer.releaseItem, CircularItem.release,
                    hz0] at hstep
                have hsem : b'.semaphore i + (if j = i then 1 else 0)
                    = b.semaphore i := by
                  have hb' : b' = { b with semaphore := upd b.semaphore j (b.semaphore j - 1) } := by
                    have hnz : b.semaphore j ≠ 0 := by omega
                    simp [CircularBuffer.releaseItem, CircularItem.release,
                      hnz] at hstep
                    exact hstep.symm
                  subst hb'
                  by_cases hji : j = i
                  · subst hji
                    show upd b.semaphore j (b.semaphore j - 1) j
                        + (if j = j then 1 else 0) = b.semaphore j
                    rw [upd_same, if_pos rfl]
                    omega
                  · have hij : i ≠ j := fun h => hji h.symm
                    simp [upd, hij, hji]
                simp only [countHold, countRelease] at h2 ⊢
                omega
  · intro b3 i h0
    simp [CircularBuffer.releaseItem, CircularItem.release, h0]
  · intro s
    constructor
    · intro hs
      by_contra hne
      simp [CircularItem.release, hne] at hs
    · intro hs
      simp [CircularItem.release, hs]
  · intro s hs
    have : ¬ s = 0 := by omega
    simp [LibraryVariant.release, hs]

/-- Demonstration pin-operation sequence: hold slot 0 once, release it
once. -/
def pinOpsDemo : List (PinOp 2) := [PinOp.hold 0, PinOp.release 0]

/-- End state of the demonstration sequence on a fresh capacity-2 ring. -/
def pinOpsDemoEnd : CircularBuffer 2 Nat :=
  (runPinOps ringTwo pinOpsDemo).getD ringTwo

/-- C8, witness: the amended statement on the hold-then-release
demonstration sequence. -/
theorem c8_pin_accounting_amended_witness :
    (∀ i : Fin 2, pinOpsDemoEnd.semaphore i + countRelease i pinOpsDemo
        = ringTwo.semaphore i + countHold i pinOpsDemo) ∧
    (∀ (b3 : CircularBuffer 2 Nat) (i : Fin 2),
        b3.semaphore i = 0 → b3.releaseItem i = none) ∧
    (∀ s, CircularItem.release s = none ↔ s = 0) ∧
    LibraryVariant.release 0 = 0 ∧
    (∀ s, 0 < s → LibraryVariant.release s = s - 1) :=
  c8_pin_accounting_amended 2 Nat ringTwo pinOpsDemoEnd pinOpsDemo rfl

/-- Injectivity of positional access on a duplicate-free list. -/
theorem nodup_getD_inj {β : Type} (w : List β) (hnd : w.Nodup) (d : β)
    (i j : Nat) (hi : i < w.length) (hj : j < w.length)
    (heq : w.getD i d = w.getD j d) : i = j := by
  rw [List.getD_eq_getElem _ _ hi, List.getD_eq_getElem _ _ hj] at heq
  exact (List.Nodup.getElem_inj_iff hnd).mp heq

/-- The readable window of a buffer, as an explicit list `w` of slots from
`final` (front) to `current` (back): consecutive slots are linked by `next`
forward and by `last` backward, the ring is cut between `current` and
`final` (`current.next == final`, `final.last == current`), and the slots
are pairwise distinct. This is the shape the constructor establishes (with
`w` the whole slot vector) and the shape consumer accessors rely on; its
length is the currently readable span. -/
def WindowInv {n : Nat} {α : Type} (b : CircularBuffer n α)
    (w : List (Fin n)) : Prop :=
  w ≠ [] ∧ w.Nodup ∧
  w.getD 0 b.current = b.final ∧
  w.getD (w.length - 1) b.current = b.current ∧
  (∀ i, i < w.length - 1 →
    b.next (w.getD i b.current) = w.getD (i + 1) b.current) ∧
  b.next b.current = b.final ∧
  (∀ i, i < w.length - 1 →
    b.last (w.getD (i + 1) b.current) = w.getD i b.current) ∧
  b.last b.final = b.current

instance {n : Nat} {α : Type} (b : CircularBuffer n α) (w : List (Fin n)) :
    Decidable (WindowInv b w) := by
  unfold WindowInv
  infer_instance

/-- The `getNth` walk, characterised on a buffer with readable window `w`:
starting at position `j` of the window and walking `last` for `m` steps
yields position `j - m`, and fails exactly when the walk would step past
`final` (that is, when `m` exceeds `j`). -/
theorem goNth_window {n : Nat} {α : Type} (b : CircularBuffer n α)
    (w : List (Fin n)) (hw : WindowInv b w) :
    ∀ (m j : Nat), j < w.length →
      CircularBuffer.goNth b m (w.getD j b.current)
        = if m ≤ j then some (w.getD (j - m) b.current) else none := by
  obtain ⟨hne, hnd, hhead, hlast, hnext, hcf, hlastchain, hlf⟩ := hw
  intro m
  induction m with
  | zero =>
      intro j hj
      simp [CircularBuffer.goNth]
  | succ m ih =>
      intro j hj
      cases j with
      | zero =>
          have h1 : b.last (w.getD 0 b.current) = b.current := by
            rw [hhead, hlf]
          show (if b.last (w.getD 0 b.current) = b.current then none
            else CircularBuffer.goNth b m (b.last (w.getD 0 b.current))) = _
          rw [if_pos h1, if_neg (by omega)]
      | succ jj =>
          have hjj : jj < w.length - 1 := by omega
          simp only [CircularBuffer.goNth]
          rw [hlastchain jj hjj]
          have hne2 : w.getD jj b.current ≠ b.current := by
            intro hcon
            have h3 := nodup_getD_inj w hnd b.current jj (w.length - 1)
              (by omega) (by omega) (hcon.trans hlast.symm)
            omega
          rw [if_neg hne2, ih jj (by omega)]
          by_cases hmj : m ≤ jj
          · rw [if_pos hmj, if_pos (by omega)]
            have h4 : jj - m = jj + 1 - (m + 1) := by omega
            rw [h4]
          · rw [if_neg hmj, if_neg (by omega)]

/-- C6: on a buffer with readable window `w` (span `w.length`), `getNth m`
walks `last` `m` steps from `current`; it returns the slot `m` positions
behind `current` when `m` is within the span, and fails by returning the
empty result (a null pointer in the source, an `Option.none` here, never an
exception) exactly when the walk would cross `final`, that is, when `m`
reaches or exceeds the span. -/
theorem c6_nth_range (n : Nat) (α : Type) (b : CircularBuffer n α)
    (w : List (Fin n)) (hw : WindowInv b w) (m : Nat) :
    (m < w.length →
      (b.getNth m).1 = some (w.getD (w.length - 1 - m) b.current)) ∧
    (w.length ≤ m → (b.getNth m).1 = none) := by
  have hg := goNth_window b w hw m
  obtain ⟨hne, hnd, hhead, hlast, hnext, hcf, hlastchain, hlf⟩ := hw
  have hlen : 0 < w.length := List.length_pos.mpr hne
  have hstart := hg (w.length - 1) (by omega)
  rw [hlast] at hstart
  constructor
  · intro hm
    have h2 : CircularBuffer.goNth b m b.current
        = some (w.getD (w.length - 1 - m) b.current) := by
      rw [hstart, if_pos (by omega)]
    unfold CircularBuffer.getNth
    rw [h2]
  · intro hm
    have h2 : CircularBuffer.goNth b m b.current = none := by
      rw [hstart, if_neg (by omega)]
    unfold CircularBuffer.getNth
    rw [h2]

/-- C6, witness: on a fresh capacity-3 ring the window is the whole slot
vector; `getNth 1` returns the slot one behind `current` and `getNth 5`
returns the empty result. -/
theorem c6_nth_range_witness :
    (ringThree.getNth 1).1
      = some (([0, 1, 2] : List (Fin 3)).getD (3 - 1 - 1) ringThree.current) ∧
    (ringThree.getNth 5).1 = none :=
  ⟨(c6_nth_range 3 Nat ringThree [0, 1, 2] (by decide) 1).1 (by decide),
   (c6_nth_range 3 Nat ringThree [0, 1, 2] (by decide) 5).2 (by decide)⟩

/-! Producer fill sequence used by the demo programs (`checkUpdating` and
friends): acquire, write the value, publish, repeatedly. -/

/-- One producer iteration: `getNewCurrent`, write the value into the
acquired payload, `setNewReady`. When the acquire reports buffer-full or is
out of fuel, the buffer is returned unchanged. -/
def pairStep {n : Nat} {α : Type} (b : CircularBuffer n α) (v : α) :
    CircularBuffer n α :=
  match b.getNewCurrent with
  | some (some it, b2) =>
      CircularBuffer.setNewReady { b2 with data := upd b2.data it v } it
  | _ => b

/-- Publish `vs 0, ..., vs (k - 1)` in order into the buffer. -/
def publishSeq {n : Nat} {α : Type} (b : CircularBuffer n α) (vs : Nat → α) :
    Nat → CircularBuffer n α
  | 0 => b
  | k + 1 => pairStep (publishSeq b vs k) (vs k)

/-- Slot identifier from a step count, wrapping modulo the capacity. -/
def finOf (n : Nat) (h : 0 < n) (k : Nat) : Fin n := ⟨k % n, Nat.mod_lt k h⟩

/-- Closed form of the buffer state after `i` producer iterations on a
fresh ring: the ring links are the plain successor/predecessor modulo `n`,
`current` sits at slot `i - 1` (slot `n - 1` for `i = 0`), `final` at slot
`i` (both modulo `n`), the first `i` slots carry the published values and
the rest the default payload, everything is valid and unpinned, and the
skip set is empty. -/
def fillState (n : Nat) (h : 0 < n) (α : Type) (dflt : α) (vs : Nat → α)
    (i : Nat) : CircularBuffer n α where
  data := fun j => if j.val < i then vs j.val else dflt
  valid := fun _ => true
  semaphore := fun _ => 0
  next := fun j => finOf n h (j.val + 1)
  last := fun j => finOf n h (j.val + (n - 1))
  current := finOf n h (i + (n - 1))
  final := finOf n h i
  skipped := []

theorem finOf_eq_of_mod {n : Nat} (h : 0 < n) (a b : Nat)
    (hab : a % n = b % n) : finOf n h a = finOf n h b :=
  Fin.ext hab

theorem finOf_add_n {n : Nat} (h : 0 < n) (a : Nat) :
    finOf n h (a + n) = finOf n h a :=
  Fin.ext (Nat.add_mod_right a n)

theorem mod_succ_ne {n : Nat} (h2 : 2 ≤ n) (i : Nat) :
    (i + 1) % n ≠ i % n := by
  intro hcon
  have hr := Nat.mod_lt i (show 0 < n by omega)
  rw [← Nat.mod_add_mod] at hcon
  rcases Nat.lt_or_ge (i % n + 1) n with hlt | hge
  · rw [Nat.mod_eq_of_lt hlt] at hcon
    omega
  · have hn : i % n + 1 = n := by omega
    rw [hn, Nat.mod_self] at hcon
    omega

theorem mod_pred_ne {n : Nat} (h2 : 2 ≤ n) (i : Nat) :
    (i + (n - 1)) % n ≠ i % n := by
  intro hcon
  have hr := Nat.mod_lt i (show 0 < n by omega)
  rw [← Nat.mod_add_mod] at hcon
  rcases Nat.eq_zero_or_pos (i % n) with hz | hpos
  · rw [hz] at hcon
    rw [Nat.mod_eq_of_lt (by omega)] at hcon
    omega
  · have hge : n ≤ i % n + (n - 1) := by omega
    rw [Nat.mod_eq_sub_mod hge] at hcon
    have hs : i % n + (n - 1) - n = i % n - 1 := by omega
    rw [hs, Nat.mod_eq_of_lt (by omega)] at hcon
    omega

namespace CircularBuffer

variable {n : Nat} {α : Type}

/-- When the very first scanned slot is available, the scan returns it
immediately. -/
theorem scanAux_one_step (b : CircularBuffer n α)
    (hne : b.next b.current ≠ b.current)
    (hav : b.avail (b.next b.current) = true) (hn : 0 < n) :
    scanAux b n b.current [] = ScanRes.found (b.next b.current) [] := by
  obtain ⟨m, rfl⟩ : ∃ m, n = m + 1 := ⟨n - 1, by omega⟩
  simp only [scanAux]
  rw [if_neg hne, if_pos hav]

end CircularBuffer

theorem initRing_eq_fillState (n : Nat) (h : 0 < n) (α : Type) (dflt : α)
    (vs : Nat → α) :
    CircularBuffer.initRing n h dflt = fillState n h α dflt vs 0 := by
  apply CircularBuffer.ext
  · funext j
    simp [CircularBuffer.initRing, fillState]
  · rfl
  · rfl
  · funext j
    apply Fin.ext
    rw [CircularBuffer.initRing_next_val h dflt j]
    rfl
  · funext j
    apply Fin.ext
    rw [CircularBuffer.initRing_last_val h dflt j]
    rfl
  · apply Fin.ext
    show n - 1 = (0 + (n - 1)) % n
    rw [Nat.zero_add, Nat.mod_eq_of_lt (by omega)]
  · apply Fin.ext
    show 0 = 0 % n
    rw [Nat.zero_mod]
  · rfl

/-- One producer iteration on the closed-form state advances it by one
step: the scan picks the slot after `current` (which is slot `i` modulo
`n`), `final` moves to slot `i + 1`, the publish restores the plain
successor links, and the value lands in slot `i`. -/
theorem fill_step (n : Nat) (h : 0 < n) (h2 : 2 ≤ n) (α : Type) (dflt : α)
    (vs : Nat → α) (i : Nat) (hi : i < n) :
    pairStep (fillState n h α dflt vs i) (vs i)
      = fillState n h α dflt vs (i + 1) := by
  have hnxt : (fillState n h α dflt vs i).next
      (fillState n h α dflt vs i).current = finOf n h i := by
    apply Fin.ext
    show ((i + (n - 1)) % n + 1) % n = i % n
    rw [Nat.mod_add_mod]
    have he : i + (n - 1) + 1 = i + n := by omega
    rw [he, Nat.add_mod_right]
  have hne : (fillState n h α dflt vs i).next
      (fillState n h α dflt vs i).current
        ≠ (fillState n h α dflt vs i).current := by
    rw [hnxt]
    intro hcon
    exact mod_pred_ne h2 i (congrArg Fin.val hcon).symm
  have hav : (fillState n h α dflt vs i).avail
      ((fillState n h α dflt vs i).next
        (fillState n h α dflt vs i).current) = true := rfl
  have hscan := CircularBuffer.scanAux_one_step
    (fillState n h α dflt vs i) hne hav h
  rw [hnxt] at hscan
  have hacq := CircularBuffer.getNewCurrent_eq_of_found
    (fillState n h α dflt vs i) (finOf n h i) [] rfl hscan
  have hnf : (fillState n h α dflt vs i).next (finOf n h i)
      = finOf n h (i + 1) := by
    apply Fin.ext
    show (i % n + 1) % n = (i + 1) % n
    rw [Nat.mod_add_mod]
  rw [hnf] at hacq
  unfold pairStep
  rw [hacq]
  apply CircularBuffer.ext
  · -- data
    funext j
    show upd (fillState n h α dflt vs i).data (finOf n h i) (vs i) j
      = (fillState n h α dflt vs (i + 1)).data j
    by_cases hj : j = finOf n h i
    · subst hj
      rw [upd_same]
      show _ = if i % n < i + 1 then vs (i % n) else dflt
      rw [Nat.mod_eq_of_lt hi, if_pos (by omega)]
    · rw [upd_other _ _ _ _ hj]
      show (if j.val < i then vs j.val else dflt)
        = if j.val < i + 1 then vs j.val else dflt
      have hvne : j.val ≠ i := by
        intro hcon
        apply hj
        apply Fin.ext
        rw [hcon]
        show i = i % n
        rw [Nat.mod_eq_of_lt hi]
      by_cases hv : j.val < i
      · rw [if_pos hv, if_pos (by omega)]
      · rw [if_neg hv, if_neg (by omega)]
  · -- valid
    funext j
    show upd (upd (fillState n h α dflt vs i).valid (finOf n h i) false)
      (finOf n h i) true j = true
    by_cases hj : j = finOf n h i
    · subst hj
      rw [upd_same]
    · rw [upd_other _ _ _ _ hj, upd_other _ _ _ _ hj]
      rfl
  · -- semaphore
    rfl
  · -- next
    funext j
    show upd (upd (upd (fillState n h α dflt vs i).next
        (fillState n h α dflt vs i).current (finOf n h (i + 1)))
        (fillState n h α dflt vs i).current (finOf n h i))
        (finOf n h i) (finOf n h (i + 1)) j
      = finOf n h (j.val + 1)
    by_cases h1 : j = finOf n h i
    · subst h1
      rw [upd_same]
      apply Fin.ext
      show (i + 1) % n = (i % n + 1) % n
      rw [Nat.mod_add_mod]
    · rw [upd_other _ _ _ _ h1]
      by_cases h2c : j = (fillState n h α dflt vs i).current
      · subst h2c
        rw [upd_same]
        apply Fin.ext
        show i % n = ((i + (n - 1)) % n + 1) % n
        rw [Nat.mod_add_mod]
        have he : i + (n - 1) + 1 = i + n := by omega
        rw [he, Nat.add_mod_right]
      · rw [upd_other _ _ _ _ h2c, upd_other _ _ _ _ h2c]
        rfl
  · -- last
    funext j
    show upd (upd (upd (fillState n h α dflt vs i).last
        (finOf n h i) (fillState n h α dflt vs i).current)
        (finOf n h (i + 1)) (fillState n h α dflt vs i).current)
        (finOf n h (i + 1)) (finOf n h i) j
      = finOf n h (j.val + (n - 1))
    by_cases h1 : j = finOf n h (i + 1)
    · subst h1
      rw [upd_same]
      apply Fin.ext
      show i % n = ((i + 1) % n + (n - 1)) % n
      rw [Nat.mod_add_mod]
      have he : i + 1 + (n - 1) = i + n := by omega
      rw [he, Nat.add_mod_right]
    · rw [upd_other _ _ _ _ h1, upd_other _ _ _ _ h1]
      by_cases h2c : j = finOf n h i
      · subst h2c
        rw [upd_same]
        apply Fin.ext
        show (i + (n - 1)) % n = (i % n + (n - 1)) % n
        rw [Nat.mod_add_mod]
      · rw [upd_other _ _ _ _ h2c]
        rfl
  · -- current
    apply Fin.ext
    show i % n = (i + 1 + (n - 1)) % n
    have he : i + 1 + (n - 1) = i + n := by omega
    rw [he, Nat.add_mod_right]
  · -- final
    rfl
  · -- skipped
    rfl

/-- Publishing `k <= n` values into a fresh ring reaches the closed-form
state. -/
theorem publishSeq_fill (n : Nat) (h : 0 < n) (h2 : 2 ≤ n) (α : Type)
    (dflt : α) (vs : Nat → α) (k : Nat) (hk : k ≤ n) :
    publishSeq (CircularBuffer.initRing n h dflt) vs k
      = fillState n h α dflt vs k := by
  induction k with
  | zero => exact initRing_eq_fillState n h α dflt vs
  | succ m ih =>
      show pairStep (publishSeq (CircularBuffer.initRing n h dflt) vs m)
        (vs m) = _
      rw [ih (by omega), fill_step n h h2 α dflt vs m (by omega)]

/-- The `getFinal(n)` collection walk on the fully published state steps
through consecutive slots without reaching `final` again, as long as it
stays within the ring. -/
theorem getFinalNAux_fill (n : Nat) (h : 0 < n) (α : Type) (dflt : α)
    (vs : Nat → α) :
    ∀ (m j : Nat) (acc : List (Fin n)), j + m + 1 ≤ n →
      CircularBuffer.getFinalNAux (fillState n h α dflt vs n) m
        (finOf n h j) acc
        = acc ++ (List.range m).map (fun t => finOf n h (j + 1 + t)) := by
  intro m
  induction m with
  | zero =>
      intro j acc hj
      simp [CircularBuffer.getFinalNAux]
  | succ m ih =>
      intro j acc hj
      have hstep : (fillState n h α dflt vs n).next (finOf n h j)
          = finOf n h (j + 1) := by
        apply Fin.ext
        show (j % n + 1) % n = (j + 1) % n
        rw [Nat.mod_add_mod]
      simp only [CircularBuffer.getFinalNAux]
      rw [hstep]
      have hnf : finOf n h (j + 1) ≠ (fillState n h α dflt vs n).final := by
        intro hcon
        have hv := congrArg Fin.val hcon
        have hv2 : (j + 1) % n = n % n := hv
        rw [Nat.mod_self, Nat.mod_eq_of_lt (by omega)] at hv2
        omega
      rw [if_neg hnf, ih (j + 1) (acc ++ [finOf n h (j + 1)]) (by omega)]
      rw [List.append_assoc, List.singleton_append,
        List.range_succ_eq_map, List.map_cons, List.map_map]
      have hfe : ((fun t => finOf n h (j + 1 + t)) ∘ Nat.succ)
          = (fun t => finOf n h (j + 1 + 1 + t)) := by
        funext t
        show finOf n h (j + 1 + (t + 1)) = finOf n h (j + 1 + 1 + t)
        congr 1
        omega
      rw [hfe]

/-- The `getCurrent(n)` collection walk on the fully published state steps
through consecutive predecessors without reaching `current` again, as long
as it does not pass slot 0. -/
theorem getCurrentNAux_fill (n : Nat) (h : 0 < n) (α : Type) (dflt : α)
    (vs : Nat → α) :
    ∀ (m j : Nat) (acc : List (Fin n)), j < n → m ≤ j →
      CircularBuffer.getCurrentNAux (fillState n h α dflt vs n) m
        (finOf n h j) acc
        = acc ++ (List.range m).map (fun t => finOf n h (j - (1 + t))) := by
  intro m
  induction m with
  | zero =>
      intro j acc hjn hmj
      simp [CircularBuffer.getCurrentNAux]
  | succ m ih =>
      intro j acc hjn hmj
      have hstep : (fillState n h α dflt vs n).last (finOf n h j)
          = finOf n h (j - 1) := by
        apply Fin.ext
        show (j % n + (n - 1)) % n = (j - 1) % n
        rw [Nat.mod_add_mod]
        have he : j + (n - 1) = (j - 1) + n := by omega
        rw [he, Nat.add_mod_right]
      simp only [CircularBuffer.getCurrentNAux]
      rw [hstep]
      have hnc : finOf n h (j - 1)
          ≠ (fillState n h α dflt vs n).current := by
        intro hcon
        have hv : (j - 1) % n = (n + (n - 1)) % n := congrArg Fin.val hcon
        have he : n + (n - 1) = (n - 1) + n := by omega
        have hub : j - 1 < n := by omega
        have hub2 : n - 1 < n := by omega
        rw [he, Nat.add_mod_right, Nat.mod_eq_of_lt hub,
          Nat.mod_eq_of_lt hub2] at hv
        omega
      rw [if_neg hnc, ih (j - 1) (acc ++ [finOf n h (j - 1)]) (by omega)
        (by omega)]
      rw [List.append_assoc, List.singleton_append,
        List.range_succ_eq_map, List.map_cons, List.map_map]
      have hfe : ((fun t => finOf n h (j - (1 + t))) ∘ Nat.succ)
          = (fun t => finOf n h (j - 1 - (1 + t))) := by
        funext t
        show finOf n h (j - (1 + (t + 1))) = finOf n h (j - 1 - (1 + t))
        congr 1
        omega
      rw [hfe]

theorem range_reverse_map (n : Nat) :
    (List.range n).reverse = (List.range n).map (fun t => n - 1 - t) := by
  apply List.ext_getElem
  · simp
  · intro i h1 h2
    rw [List.getElem_reverse, List.getElem_map, List.getElem_range,
      List.getElem_range, List.length_range]

/-- Payload of slot `k` in the fully published closed-form state. -/
theorem fillState_data_finOf (n : Nat) (h : 0 < n) (α : Type) (dflt : α)
    (vs : Nat → α) (k : Nat) (hk : k < n) :
    (fillState n h α dflt vs n).data (finOf n h k) = vs k := by
  show (if k % n < n then vs (k % n) else dflt) = vs k
  rw [Nat.mod_eq_of_lt hk, if_pos hk]

/-- C7, amended: after publishing `v0 .. v_{N-1}` in order into a freshly
constructed buffer of capacity `N >= 2` — a full fill, `k = N` — reading
the final window of size `N` yields `v0 .. v_{N-1}` in publish order and
reading the current window of size `N` yields the same values in reverse.
For `k < N` the property fails (see the counterexample): the window then
still contains the default-constructed payloads the constructor installed,
and `getFinal` starts at one of those slots, not at `v0`. -/
theorem c7_fifo_amended (n : Nat) (h : 0 < n) (h2 : 2 ≤ n) (α : Type)
    (dflt : α) (vs : Nat → α) :
    ((publishSeq (CircularBuffer.initRing n h dflt) vs n).getFinalN n).1.map
        (publishSeq (CircularBuffer.initRing n h dflt) vs n).data
      = (List.range n).map vs ∧
    ((publishSeq (CircularBuffer.initRing n h dflt) vs n).getCurrentN n).1.map
        (publishSeq (CircularBuffer.initRing n h dflt) vs n).data
      = ((List.range n).map vs).reverse := by
  rw [publishSeq_fill n h h2 α dflt vs n (Nat.le_refl n)]
  have hrange : List.range n = 0 :: (List.range (n - 1)).map Nat.succ := by
    obtain ⟨m, hm⟩ : ∃ m, n = m + 1 := ⟨n - 1, by omega⟩
    rw [hm, Nat.add_sub_cancel]
    exact List.range_succ_eq_map m
  constructor
  · have h1 : ((fillState n h α dflt vs n).getFinalN n).1
        = (fillState n h α dflt vs n).final ::
          CircularBuffer.getFinalNAux (fillState n h α dflt vs n) (n - 1)
            (fillState n h α dflt vs n).final [] := rfl
    have hf0 : (fillState n h α dflt vs n).final = finOf n h 0 := by
      apply Fin.ext
      show n % n = 0 % n
      rw [Nat.mod_self, Nat.zero_mod]
    rw [h1, hf0, getFinalNAux_fill n h α dflt vs (n - 1) 0 [] (by omega)]
    rw [List.nil_append, List.map_cons, List.map_map, hrange,
      List.map_cons, List.map_map]
    congr 1
    · exact fillState_data_finOf n h α dflt vs 0 h
    · apply List.map_congr_left
      intro t ht
      have htlt := List.mem_range.mp ht
      show (fillState n h α dflt vs n).data (finOf n h (0 + 1 + t))
        = vs (Nat.succ t)
      rw [fillState_data_finOf n h α dflt vs (0 + 1 + t) (by omega)]
      congr 1
      omega
  · have h1 : ((fillState n h α dflt vs n).getCurrentN n).1
        = (fillState n h α dflt vs n).current ::
          CircularBuffer.getCurrentNAux (fillState n h α dflt vs n) (n - 1)
            (fillState n h α dflt vs n).current [] := rfl
    have hc0 : (fillState n h α dflt vs n).current = finOf n h (n - 1) := by
      apply Fin.ext
      show (n + (n - 1)) % n = (n - 1) % n
      have he : n + (n - 1) = (n - 1) + n := by omega
      rw [he, Nat.add_mod_right]
    rw [h1, hc0, getCurrentNAux_fill n h α dflt vs (n - 1) (n - 1) []
      (by omega) (Nat.le_refl _)]
    rw [List.nil_append, List.map_cons, List.map_map]
    rw [← List.map_reverse, range_reverse_map, List.map_map, hrange,
      List.map_cons, List.map_map]
    congr 1
    · show (fillState n h α dflt vs n).data (finOf n h (n - 1))
        = vs (n - 1 - 0)
      rw [fillState_data_finOf n h α dflt vs (n - 1) (by omega)]
      congr 1
    · apply List.map_congr_left
      intro t ht
      have htlt := List.mem_range.mp ht
      show (fillState n h α dflt vs n).data (finOf n h (n - 1 - (1 + t)))
        = vs (n - 1 - Nat.succ t)
      rw [fillState_data_finOf n h α dflt vs (n - 1 - (1 + t)) (by omega)]
      congr 1
      omega

/-- State after publishing the single value 7 into a fresh capacity-2
buffer. -/
def c7Partial : CircularBuffer 2 Nat := pairStep ringTwo 7

/-- C7, counterexample: publishing `v0 = 7` into a fresh buffer of capacity
`N = 2` (so `k = 1 <= N`) and reading the final window of size 1 yields the
default payload 0 of the still-unwritten constructor slot, not `v0 = 7`:
`final` has advanced past the written slot to a default slot. (The current
window of size 1 does yield `[7]`; it is the final-window half of the claim
that fails for `k < N`.) -/
theorem c7_fifo_counterexample :
    (c7Partial.getFinalN 1).1.map c7Partial.data = [0] ∧
    (0 : Nat) ≠ 7 ∧
    (c7Partial.getCurrentN 1).1.map c7Partial.data = [7] := by
  decide

/-- C7, witness: the amended statement at capacity 2 with values
`vs k = k + 7`. -/
theorem c7_fifo_amended_witness :
    ((publishSeq (CircularBuffer.initRing 2 (by omega) (0 : Nat))
        (fun k => k + 7) 2).getFinalN 2).1.map
        (publishSeq (CircularBuffer.initRing 2 (by omega) (0 : Nat))
          (fun k => k + 7) 2).data
      = (List.range 2).map (fun k => k + 7) ∧
    ((publishSeq (CircularBuffer.initRing 2 (by omega) (0 : Nat))
        (fun k => k + 7) 2).getCurrentN 2).1.map
        (publishSeq (CircularBuffer.initRing 2 (by omega) (0 : Nat))
          (fun k => k + 7) 2).data
      = ((List.range 2).map (fun k => k + 7)).reverse :=
  c7_fifo_amended 2 (by omega) (by omega) Nat 0 (fun k => k + 7)
